import Mathlib

/-!
Shallow embedding of the showdeps dependency-graph tool (rogpeppe/showdeps).

The embedding follows the program's own structure:

* `isStdlib`, `addPackages`, `importsOf` mirror `isStdlib`, `addPackages` and
  `imports` from the source.
* `findImports` / `buildIndex` mirror `findImports` and the per-root loop in
  `main`; the Go map `allPkgs : map[string][]string` is modelled as an
  association list (`Index`) and the external go/build resolver as an oracle
  `Resolver`.  Go's unbounded recursion is modelled with an explicit fuel
  parameter; running out of fuel is an error, so every theorem about a
  successful run describes a run the Go program completes.
* `markImporters` / `whyFilter` mirror `markImporters` and the `-why` pruning
  in `main` (the fuel used there is provably sufficient, so `whyFilter` needs
  no fuel argument).
* `patMatch` / `matchPattern` mirror `matchPattern`: the compiled regular
  expression (quoted literals, `...` replaced by `.*`, the trailing `/...`
  special case, anchored at both ends) is embedded as a decidable matcher over
  character lists.
* `iterDepChains1` / `iterDepChains` / `recordChain` / `collectChains` /
  `showNReasonsWhy` mirror the chain finder.  Go map iteration order (used by
  `showNReasonsWhy`'s outer loop) is a nondeterministic input of the real
  program and is modelled as an explicit `order` parameter.

The embedding follows the full version of the program (the one with the chain
printer), whose `findImports` tests `alreadyDone` by key presence and whose
root deletion iterates the normalized root set; the older variant checks
`allPkgs[name] != nil` instead, which only makes its behaviour worse where the
two differ (it can additionally re-expand a root reached through a cycle).
-/

namespace Showdeps

/-! ### Association lists standing in for Go maps -/

/-- First-match lookup in an association list (a Go `map` read). -/
def assocFind {α : Type} (l : List (String × α)) (k : String) : Option α :=
  match l with
  | [] => none
  | (k', v) :: rest => if k' = k then some v else assocFind rest k

/-- Replace the binding of `k` (or append a new one): a Go `map` write. -/
def assocSet {α : Type} (l : List (String × α)) (k : String) (v : α) : List (String × α) :=
  match l with
  | [] => [(k, v)]
  | (k', v') :: rest => if k' = k then (k', v) :: rest else (k', v') :: assocSet rest k v

/-- The key set of a Go map. -/
def keysOf {α : Type} (l : List (String × α)) : List String := l.map Prod.fst

/-- The reverse-dependency map `allPkgs`: package → list of its importers. -/
abbrev Index := List (String × List String)

/-- `allPkgs[pkg]`: a missing key reads as the empty (nil) importer list. -/
def lookupImps (idx : Index) (k : String) : List String := (assocFind idx k).getD []

/-! ### Standard-library classification -/

/-- The text before the first `/` of a package path
(`strings.SplitN(pkg, "/", 2)[0]`). -/
def firstSeg : List Char → List Char
  | [] => []
  | c :: rest => if c = '/' then [] else c :: firstSeg rest

/-- `isStdlib`: a package is in the standard distribution when its first path
segment contains no dot. -/
def isStdlib (pkg : String) : Bool := !((firstSeg pkg.data).contains '.')

/-! ### The external package resolver (go/build) -/

/-- The part of `build.Package` the core reads: canonical import path and the
direct, test and external-test import lists. -/
structure PackageInfo where
  importPath : String
  imports : List String
  testImports : List String
  xtestImports : List String
deriving DecidableEq

/-- The external resolver: `buildContext.Import(name, dir, 0)`, queried by
package identifier; `none` is a not-found error. -/
abbrev Resolver := String → Option PackageInfo

/-- The resolver contract assumed by the tool once the command-line roots have
been normalised (done upstream with `build.FindOnly`): resolving an identifier
returns that identifier as the canonical import path. -/
def WellFormed (r : Resolver) : Prop :=
  ∀ q info, r q = some info → info.importPath = q

/-- The two global flags read by the builder: `-T` (exclude test deps) and
`-stdlib` (include standard-distribution packages). -/
structure Flags where
  noTestDeps : Bool
  std : Bool
deriving DecidableEq

/-! ### Import-set computation (`imports` and `addPackages`) -/

/-- `addPackages`: insert each name into the set `m` unless it is a stdlib
package and `-stdlib` is off.  The Go `map[string]bool` set is modelled as a
duplicate-free list in insertion order. -/
def addPackages (flags : Flags) (m : List String) (ss : List String) : List String :=
  ss.foldl (fun m s => if (flags.std || !isStdlib s) && !m.contains s then m ++ [s] else m) m

/-- `imports(pkg, isRoot)`: the direct imports, plus the test and external-test
ones when the package is a root and `-T` was not given. -/
def importsOf (flags : Flags) (pkg : PackageInfo) (isRoot : Bool) : List String :=
  let imps := addPackages flags [] pkg.imports
  if isRoot && !flags.noTestDeps then
    addPackages flags (addPackages flags imps pkg.testImports) pkg.xtestImports
  else imps

/-! ### The dependency-graph builder (`findImports` and `main`'s root loop) -/

/-- Build failure: an unresolvable package (fatal in Go) or fuel exhaustion
(the Go recursion has no such bound; theorems only concern `.ok` runs). -/
inductive BuildErr where
  | notFound (pkg : String)
  | outOfFuel
deriving DecidableEq

/-- Builder state: the index under construction plus a ghost log of every
identifier submitted to the resolver, in query order. -/
structure BuildSt where
  idx : Index
  log : List String
deriving DecidableEq

/-- `allPkgs[pkg.ImportPath] = allPkgs[pkg.ImportPath]`: make sure the package
has an entry (marking it visited), without touching an existing one. -/
def ensureEntry (idx : Index) (p : String) : Index :=
  if (assocFind idx p).isSome then idx else idx ++ [(p, [])]

/-- `allPkgs[name] = append(allPkgs[name], importer)`. -/
def appendImp (idx : Index) (name importer : String) : Index :=
  assocSet idx name ((assocFind idx name).getD [] ++ [importer])

/-- `findImports(packageName, dir, recur, allPkgs, rootPkgs)`: skip the cgo
pseudo-package `"C"`; resolve the package (logging the query); ensure it has an
index entry; then for every computed import that survives the stdlib filter,
record the reverse edge and, when `recur` is set and the target has no index
entry yet, expand it recursively. -/
def findImports (r : Resolver) (flags : Flags) (recur : Bool) (rootPkgs : List String) :
    Nat → String → BuildSt → Except BuildErr BuildSt
  | 0, _, _ => .error .outOfFuel
  | fuel + 1, packageName, st =>
    if packageName = "C" then .ok st
    else
      match r packageName with
      | none => .error (.notFound packageName)
      | some pkg =>
        let st1 : BuildSt := ⟨ensureEntry st.idx pkg.importPath, st.log ++ [packageName]⟩
        (importsOf flags pkg (rootPkgs.contains pkg.importPath)).foldlM
          (fun st2 name =>
            if !flags.std && isStdlib name then pure st2
            else
              let alreadyDone := (assocFind st2.idx name).isSome
              let st3 : BuildSt := ⟨appendImp st2.idx name pkg.importPath, st2.log⟩
              if recur && !alreadyDone then
                findImports r flags recur rootPkgs fuel name st3
              else pure st3)
          st1

/-- The construction loop of `main`: run `findImports` once for each root over
an initially empty index. -/
def buildIndex (r : Resolver) (flags : Flags) (recur : Bool) (roots : List String)
    (fuel : Nat) : Except BuildErr BuildSt :=
  roots.foldlM (fun st p => findImports r flags recur roots fuel p st) ⟨[], []⟩

/-- Root-deletion post-processing: `for pkg := range rootPkgs { delete(allPkgs, pkg) }`. -/
def deleteRoots (roots : List String) (idx : Index) : Index :=
  idx.filter (fun kv => !(roots.contains kv.1))

/-- Resolver-query log of a build outcome (empty on failure). -/
def stLog : Except BuildErr BuildSt → List String
  | .ok st => st.log
  | .error _ => []

/-- Index of a build outcome (empty on failure). -/
def stIdx : Except BuildErr BuildSt → Index
  | .ok st => st.idx
  | .error _ => []

/-- Whether a build completed without error. -/
def isOkB : Except BuildErr BuildSt → Bool
  | .ok _ => true
  | .error _ => false

/-! ### The `-why` reachability filter (`markImporters` and `main`) -/

/-- `markImporters(pkg, allPkgs, marked)`: mark `pkg` and, recursively, every
package in its importer list.  The `marked` map is threaded; `fuel` bounds the
recursion depth (`whyFilter` always supplies enough). -/
def markImporters (idx : Index) : Nat → String → List String → List String
  | 0, _, marked => marked
  | fuel + 1, pkg, marked =>
    if pkg ∈ marked then marked
    else (lookupImps idx pkg).foldl (fun mk imp => markImporters idx fuel imp mk) (pkg :: marked)

/-- A fuel bound under which the marking recursion provably saturates: only
index keys spawn further recursion, so the number of distinct keys bounds the
useful depth. -/
def fuelFor (idx : Index) : Nat := (keysOf idx).toFinset.card + 1

/-- The `-why` pruning in `main`: mark from every key matching the pattern,
then delete all unmarked keys. -/
def whyFilter (whyM : String → Bool) (idx : Index) : Index :=
  let marked := (keysOf idx).foldl
    (fun mk pkg => if whyM pkg then markImporters idx (fuelFor idx) pkg mk else mk) []
  idx.filter (fun kv => kv.1 ∈ marked)

/-- Reachability along recorded importer edges: one step goes from a package to
any member of its importer list. -/
inductive Reach (idx : Index) : String → String → Prop where
  | refl (p : String) : Reach idx p p
  | step {p x y : String} : Reach idx p x → y ∈ lookupImps idx x → Reach idx p y

/-! ### The pattern matcher (`matchPattern`) -/

/-- Language of the limited glob regex built by `matchPattern` before the
trailing-`/...` special case: literal characters (the Go code quotes all regex
metacharacters) with each `...` turned into `.*`, anchored at both ends. -/
def patMatch : List Char → List Char → Bool
  | [], s => s.isEmpty
  | '.' :: '.' :: '.' :: p, s => s.tails.any (fun t => patMatch p t)
  | c :: p, c' :: s => c = c' && patMatch p s
  | _ :: _, [] => false

/-- Whether three consecutive dots occur anywhere (i.e. the pattern has a
wildcard after quoting). -/
def containsDots : List Char → Bool
  | [] => false
  | [_] => false
  | [_, _] => false
  | a :: b :: c :: rest => (a = '.' && b = '.' && c = '.') || containsDots (b :: c :: rest)

/-- `matchPattern(pattern)(name)`: the compiled, anchored glob; a pattern
ending in `/...` also matches the text without the trailing `/...`. -/
def matchPattern (pattern name : String) : Bool :=
  let P := pattern.data
  if ['/', '.', '.', '.'].isSuffixOf P then
    patMatch P.dropLast.dropLast.dropLast.dropLast name.data || patMatch P name.data
  else patMatch P name.data

/-! ### The chain finder (`iterDepChains`, `showNReasonsWhy`) -/

/-- `iterDepChains1(chain, visited, rootPkgs, allPkgs, f)`: if the last chain
element is a root, yield the chain; if it was already visited, yield nothing;
otherwise mark it visited and walk its importer list, threading the visited set
left to right exactly as the shared Go map does.  Returns the emitted chains
(in emission order) and the final visited set. -/
def iterDepChains1 (rootPkgs : List String) (idx : Index) :
    Nat → List String → List String → List (List String) × List String
  | 0, _, visited => ([], visited)
  | fuel + 1, chain, visited =>
    if rootPkgs.contains (chain.getLastD "") then ([chain], visited)
    else if chain.getLastD "" ∈ visited then ([], visited)
    else
      (lookupImps idx (chain.getLastD "")).foldl
        (fun acc importer =>
          (acc.1 ++ (iterDepChains1 rootPkgs idx fuel (chain ++ [importer]) acc.2).1,
            (iterDepChains1 rootPkgs idx fuel (chain ++ [importer]) acc.2).2))
        ([], chain.getLastD "" :: visited)

/-- `iterDepChains(leaf, ...)`: start the search at `[leaf]` with an empty
visited set; chains are emitted leaf first. -/
def iterDepChains (rootPkgs : List String) (idx : Index) (fuel : Nat) (leaf : String) :
    List (List String) :=
  (iterDepChains1 rootPkgs idx fuel [leaf] []).1

/-- The collection callback in `showNReasonsWhy`: bucket each emitted chain
under its terminal root, skipping it when `limit > 0` and the bucket is full;
kept chains are reversed so they read root → leaf. -/
def recordChain (limit : Nat) (m : List (String × List (List String))) (chain : List String) :
    List (String × List (List String)) :=
  match chain.getLast? with
  | none => m
  | some root =>
    let cur := (assocFind m root).getD []
    if limit > 0 && limit ≤ cur.length then m
    else assocSet m root (cur ++ [chain.reverse])

/-- The chain-collection phase of `showNReasonsWhy`: scan the packages in
`order` (the Go map iteration order over `allPkgs`), and for each one matching
the `-why` pattern, record every chain the finder yields. -/
def collectChains (fuel limit : Nat) (whyM : String → Bool) (order rootPkgs : List String)
    (idx : Index) : List (String × List (List String)) :=
  order.foldl
    (fun m pkg =>
      if whyM pkg then (iterDepChains rootPkgs idx fuel pkg).foldl (recordChain limit) m
      else m)
    []

/-- Byte-wise (code-point) string order, used to model `sort.Strings`. -/
def charListLe : List Char → List Char → Bool
  | [], _ => true
  | _ :: _, [] => false
  | c :: cs, d :: ds => if c = d then charListLe cs ds else decide (c < d)

/-- Insert into a sorted list (model of `sort.Strings`). -/
def insertSorted (x : String) : List String → List String
  | [] => [x]
  | y :: rest => if charListLe x.data y.data then x :: y :: rest else y :: insertSorted x rest

/-- Sort a list of strings (model of `sort.Strings`). -/
def sortStrings (l : List String) : List String := l.foldr insertSorted []

/-- `showNReasonsWhy`: collect the bounded chain buckets, then print them
grouped by terminal root in sorted root order.  `order` is the Go map
iteration order of the outer loop. -/
def showNReasonsWhy (fuel limit : Nat) (whyM : String → Bool) (order rootPkgs : List String)
    (idx : Index) : List (List String) :=
  let chains := collectChains fuel limit whyM order rootPkgs idx
  let whyRoots := sortStrings (keysOf chains)
  whyRoots.foldl (fun out rt => out ++ ((assocFind chains rt).getD [])) []

/-- The chain bucket kept for a given terminal root. -/
def bucketOf (m : List (String × List (List String))) (rt : String) : List (List String) :=
  (assocFind m rt).getD []

/-! ### Concrete runs used as counterexamples and witnesses -/

/-- Flags with defaults: test deps included, stdlib excluded. -/
def flagsD : Flags := ⟨false, false⟩

/-- Flags with `-stdlib` given. -/
def flagsStd : Flags := ⟨false, true⟩

/-- Two roots where the first imports the second. -/
def rTwoRoots : Resolver := fun q =>
  if q = "a.com/a" then some ⟨"a.com/a", ["a.com/b"], [], []⟩
  else if q = "a.com/b" then some ⟨"a.com/b", [], [], []⟩
  else none

/-- A standard-distribution root that imports an external package. -/
def rStdRoot : Resolver := fun q =>
  if q = "strconv" then some ⟨"strconv", ["x.com/y"], [], []⟩
  else if q = "x.com/y" then some ⟨"x.com/y", [], [], []⟩
  else none

/-- A package whose only direct import is a stdlib package. -/
def pkgNonTest : PackageInfo := ⟨"x.com/p", ["fmt"], [], []⟩

/-- A root that lists the cgo pseudo-import `"C"`. -/
def rCgo : Resolver := fun q =>
  if q = "a.com/x" then some ⟨"a.com/x", ["C"], [], []⟩
  else none

/-- One root importing one dependency, plus a stdlib one. -/
def rOneRoot : Resolver := fun q =>
  if q = "a.com/a" then some ⟨"a.com/a", ["a.com/b", "fmt"], [], []⟩
  else if q = "a.com/b" then some ⟨"a.com/b", [], [], []⟩
  else none

/-- A built index where two leaves are each imported by the same root. -/
def idxWhy : Index := [("a.com/l1", ["a.com/app"]), ("a.com/l2", ["a.com/app"])]

/-- The `-why` predicate matching both leaves of `idxWhy`. -/
def whyMEx : String → Bool := fun s => matchPattern "a.com/l..." s

/-- Decidable equality of build outcomes, for evaluating concrete runs. -/
instance buildOutcomeDecEq : DecidableEq (Except BuildErr BuildSt) := fun a b =>
  match a, b with
  | .ok x, .ok y =>
    if h : x = y then isTrue (by rw [h]) else isFalse (by intro hh; cases hh; exact h rfl)
  | .error x, .error y =>
    if h : x = y then isTrue (by rw [h]) else isFalse (by intro hh; cases hh; exact h rfl)
  | .ok _, .error _ => isFalse (by intro hh; cases hh)
  | .error _, .ok _ => isFalse (by intro hh; cases hh)

/-! ## Theorems -/

/-! ### The pattern matcher -/

theorem containsDots_cons_false {c : Char} {p : List Char} (h : containsDots (c :: p) = false) :
    containsDots p = false := by
  match p with
  | [] => rfl
  | [_] => rfl
  | x :: y :: r =>
    simp [containsDots] at h ⊢
    tauto

theorem containsDots_cons_true {a : Char} {rest : List Char} (h : containsDots rest = true) :
    containsDots (a :: rest) = true := by
  match rest, h with
  | x :: y :: r, h =>
    simp [containsDots] at h ⊢
    tauto

theorem containsDots_append_dots (A l : List Char) :
    containsDots (A ++ '.' :: '.' :: '.' :: l) = true := by
  induction A with
  | nil => simp [containsDots]
  | cons a A ih => exact containsDots_cons_true ih

/-- A wildcard-free pattern matches exactly itself: the compiled regex is a
fully anchored literal. -/
theorem patMatch_literal : ∀ P N, containsDots P = false → (patMatch P N = true ↔ N = P) := by
  intro P N
  induction P, N using patMatch.induct with
  | case1 s =>
    intro _
    simp [patMatch, List.isEmpty_iff]
  | case2 p s ih =>
    intro h
    simp [containsDots] at h
  | case3 c p c' s hshape ih =>
    intro h
    rw [patMatch.eq_3 c p c' s hshape]
    simp only [Bool.and_eq_true, decide_eq_true_eq, ih (containsDots_cons_false h),
      List.cons.injEq]
    tauto
  | case4 head tail hshape =>
    intro h
    rw [patMatch.eq_4 head tail hshape]
    simp

theorem matchPattern_literal (pat name : String) (h : containsDots pat.data = false) :
    (matchPattern pat name = true ↔ name = pat) := by
  have hsfx : (['/', '.', '.', '.'].isSuffixOf pat.data) = false := by
    by_contra hne
    have hs : ['/', '.', '.', '.'] <:+ pat.data :=
      List.isSuffixOf_iff_suffix.mp (Bool.not_eq_false _ |>.mp hne)
    obtain ⟨A, hA⟩ := hs
    have hdots : containsDots pat.data = true := by
      rw [← hA]
      have := containsDots_append_dots (A ++ ['/']) []
      simpa [List.append_assoc] using this
    rw [h] at hdots
    exact Bool.false_ne_true hdots
  rw [matchPattern]
  simp only [hsfx, Bool.false_eq_true, if_false]
  rw [patMatch_literal pat.data name.data h]
  exact (String.ext_iff).symm

/-- C9: the compiled predicate for pattern `a/b/...` accepts `a/b`, `a/b/c`
and `a/b/c/d`, rejects `a/bc`, and matching is anchored: a wildcard-free
pattern matches an identifier exactly when the whole identifier equals the
pattern. -/
theorem c9_matchPattern_spec :
    matchPattern "a/b/..." "a/b" = true ∧
    matchPattern "a/b/..." "a/b/c" = true ∧
    matchPattern "a/b/..." "a/b/c/d" = true ∧
    matchPattern "a/b/..." "a/bc" = false ∧
    (∀ pat name : String, containsDots pat.data = false →
      (matchPattern pat name = true ↔ name = pat)) :=
  ⟨by decide, by decide, by decide, by decide,
    fun pat name h => matchPattern_literal pat name h⟩

/-- C9 witness: the anchoring clause applied to the concrete wildcard-free
pattern `a/b`. -/
theorem c9_witness :
    containsDots ("a/b" : String).data = false ∧
      (matchPattern "a/b" "a/b" = true ↔ ("a/b" : String) = "a/b") :=
  ⟨by decide, c9_matchPattern_spec.2.2.2.2 "a/b" "a/b" (by decide)⟩

/-! ### The import-set computation -/

theorem mem_addPackages (flags : Flags) :
    ∀ (ss m : List String) (x : String),
      x ∈ addPackages flags m ss ↔
        x ∈ m ∨ (x ∈ ss ∧ (flags.std = true ∨ isStdlib x = false)) := by
  intro ss
  induction ss with
  | nil => intro m x; simp [addPackages]
  | cons s ss ih =>
    intro m x
    have hstep : addPackages flags m (s :: ss) =
        addPackages flags (if (flags.std || !isStdlib s) && !m.contains s then m ++ [s] else m)
          ss := rfl
    rw [hstep, ih]
    split
    · next hc =>
      simp only [Bool.and_eq_true, Bool.or_eq_true, Bool.not_eq_true'] at hc
      simp only [List.mem_append, List.mem_singleton, List.mem_cons]
      by_cases hx : x = s
      · subst hx
        rcases hc.1 with h1 | h1 <;> tauto
      · tauto
    · next hc =>
      simp only [Bool.and_eq_true, Bool.or_eq_true, Bool.not_eq_true'] at hc
      push_neg at hc
      simp only [List.mem_cons]
      by_cases hx : x = s
      · subst hx
        constructor
        · tauto
        · rintro (hm | ⟨_, hok⟩)
          · tauto
          · have hmem : x ∈ m := List.elem_iff.mp (Bool.ne_false_iff.mp (hc hok))
            tauto
      · tauto

/-- Membership in `imports(pkg, isRoot)`: non-test imports, plus test and
external-test imports when the package is a root and `-T` is off, all filtered
by the standard-distribution rule. -/
theorem mem_importsOf (flags : Flags) (pkg : PackageInfo) (isRoot : Bool) (x : String) :
    x ∈ importsOf flags pkg isRoot ↔
      ((x ∈ pkg.imports ∨
          (isRoot = true ∧ flags.noTestDeps = false ∧
            (x ∈ pkg.testImports ∨ x ∈ pkg.xtestImports))) ∧
        (flags.std = true ∨ isStdlib x = false)) := by
  rw [importsOf]
  split
  · next hr =>
    simp only [Bool.and_eq_true, Bool.not_eq_true'] at hr
    simp only [mem_addPackages, List.not_mem_nil, false_or]
    tauto
  · next hr =>
    simp only [Bool.and_eq_true, Bool.not_eq_true'] at hr
    push_neg at hr
    simp only [mem_addPackages, List.not_mem_nil, false_or]
    constructor
    · tauto
    · rintro ⟨h1 | ⟨hroot, hnt, _⟩, hok⟩
      · tauto
      · exact absurd hnt (by simpa [hroot] using hr)

/-! ### Association-list and fold lemmas -/

theorem assocFind_eq_none {α : Type} (l : List (String × α)) (k : String) :
    assocFind l k = none ↔ k ∉ keysOf l := by
  induction l with
  | nil => simp [assocFind, keysOf]
  | cons kv rest ih =>
    obtain ⟨k', v⟩ := kv
    simp only [assocFind, keysOf, List.map_cons, List.mem_cons]
    split
    · next he => simp [he]
    · next he =>
      rw [ih]
      simp only [keysOf]
      constructor
      · intro hn
        rintro (h1 | h2)
        · exact he h1.symm
        · exact hn h2
      · intro hn h2
        exact hn (Or.inr h2)

theorem assocFind_isSome {α : Type} (l : List (String × α)) (k : String) :
    (assocFind l k).isSome = true ↔ k ∈ keysOf l := by
  rcases hf : assocFind l k with _ | v
  · simpa using (assocFind_eq_none l k).mp hf
  · simp only [Option.isSome_some, true_iff]
    by_contra hn
    rw [← assocFind_eq_none l k] at hn
    rw [hf] at hn
    cases hn

theorem keysOf_cons {α : Type} (k : String) (v : α) (rest : List (String × α)) :
    keysOf ((k, v) :: rest) = k :: keysOf rest := rfl

theorem mem_keysOf_assocSet {α : Type} (l : List (String × α)) (k : String) (v : α)
    (k' : String) : k' ∈ keysOf (assocSet l k v) ↔ k' ∈ keysOf l ∨ k' = k := by
  induction l with
  | nil => simp [assocSet, keysOf]
  | cons kv rest ih =>
    obtain ⟨k0, v0⟩ := kv
    simp only [assocSet]
    split
    · next he =>
      subst he
      rw [keysOf_cons, keysOf_cons]
      simp only [List.mem_cons]
      tauto
    · next he =>
      rw [keysOf_cons, keysOf_cons]
      simp only [List.mem_cons, ih]
      tauto

theorem assocFind_assocSet {α : Type} (l : List (String × α)) (k : String) (v : α)
    (k' : String) :
    assocFind (assocSet l k v) k' = if k' = k then some v else assocFind l k' := by
  induction l with
  | nil =>
    by_cases h : k' = k
    · subst h
      simp [assocSet, assocFind]
    · have h2 : ¬k = k' := fun hh => h hh.symm
      simp [assocSet, assocFind, h, h2]
  | cons kv rest ih =>
    obtain ⟨k0, v0⟩ := kv
    simp only [assocSet]
    split
    · next he =>
      subst he
      by_cases h : k' = k0
      · subst h
        simp [assocFind]
      · have h2 : ¬k0 = k' := fun hh => h hh.symm
        simp [assocFind, h, h2]
    · next he =>
      by_cases h : k0 = k'
      · subst h
        rw [if_neg (fun hh : k0 = k => he hh)]
        simp [assocFind]
      · simp only [assocFind, ih, if_neg h]

theorem except_foldlM_rel {ε α β : Type} (R : β → β → Prop)
    (hrefl : ∀ b, R b b) (htrans : ∀ a b c, R a b → R b c → R a c)
    (l : List α) (step : β → α → Except ε β) :
    (∀ b a b', a ∈ l → step b a = .ok b' → R b b') →
    ∀ b b', l.foldlM step b = .ok b' → R b b' := by
  induction l with
  | nil =>
    intro _ b b' h
    simp only [List.foldlM_nil] at h
    cases h
    exact hrefl b
  | cons a l ih =>
    intro hstep b b' h
    rw [List.foldlM_cons] at h
    cases hs : step b a with
    | error e =>
      rw [hs] at h
      change Except.error e = Except.ok b' at h
      exact Except.noConfusion h
    | ok b1 =>
      rw [hs] at h
      change l.foldlM step b1 = Except.ok b' at h
      exact htrans _ _ _ (hstep b a b1 (List.mem_cons_self a l) hs)
        (ih (fun b a b' ha => hstep b a b' (List.mem_cons_of_mem _ ha)) b1 b' h)

theorem except_foldlM_inv {ε α β : Type} (P : β → Prop)
    (l : List α) (step : β → α → Except ε β)
    (hstep : ∀ b a b', a ∈ l → step b a = .ok b' → P b → P b') :
    ∀ b b', l.foldlM step b = .ok b' → P b → P b' :=
  except_foldlM_rel (fun b b' => P b → P b') (fun _ h => h) (fun _ _ _ h1 h2 h => h2 (h1 h))
    l step hstep

/-! ### Index-operation lemmas -/

theorem mem_keysOf_ensureEntry (idx : Index) (p k : String) :
    k ∈ keysOf (ensureEntry idx p) ↔ k ∈ keysOf idx ∨ k = p := by
  rw [ensureEntry]
  split
  · next hs =>
    rw [assocFind_isSome] at hs
    constructor
    · exact Or.inl
    · rintro (h | h)
      · exact h
      · exact h ▸ hs
  · next hs =>
    simp [keysOf]

theorem self_mem_ensureEntry (idx : Index) (p : String) :
    p ∈ keysOf (ensureEntry idx p) :=
  (mem_keysOf_ensureEntry idx p p).mpr (Or.inr rfl)

theorem mem_keysOf_appendImp (idx : Index) (n i k : String) :
    k ∈ keysOf (appendImp idx n i) ↔ k ∈ keysOf idx ∨ k = n := by
  rw [appendImp]
  exact mem_keysOf_assocSet idx n _ k

theorem lookupImps_appendImp (idx : Index) (n i k : String) :
    lookupImps (appendImp idx n i) k =
      if k = n then lookupImps idx n ++ [i] else lookupImps idx k := by
  rw [appendImp, lookupImps, assocFind_assocSet]
  split
  · next he => simp [lookupImps]
  · next he => rfl

theorem lookupImps_ensureEntry (idx : Index) (p k : String) :
    lookupImps (ensureEntry idx p) k = lookupImps idx k := by
  rw [ensureEntry]
  split
  · rfl
  · next hs =>
    rw [lookupImps, lookupImps]
    induction idx with
    | nil =>
      simp only [List.nil_append, assocFind]
      split
      · next he =>
        subst he
        simp [assocFind]
      · next he => simp [assocFind]
    | cons kv rest ih =>
      obtain ⟨k0, v0⟩ := kv
      by_cases hk0 : (assocFind ((k0, v0) :: rest) p).isSome = true
      · exact absurd hk0 hs
      · simp only [List.cons_append, assocFind]
        split
        · rfl
        · next he =>
          have hs' : ¬(assocFind rest p).isSome = true := by
            intro hsome
            apply hs
            simp only [assocFind]
            split
            · simp
            · exact hsome
          exact ih hs'

theorem lookupImps_eq_nil_of_not_mem (idx : Index) (k : String) (h : k ∉ keysOf idx) :
    lookupImps idx k = [] := by
  rw [lookupImps, (assocFind_eq_none idx k).mpr h]
  rfl

/-! ### Builder invariants -/

/-- Core invariant of one `findImports` call: keys only grow, the query log
grows by a duplicate-free block of identifiers, each newly queried identifier
receives an index entry, was not yet a key before the call (except the
argument itself), and is never `"C"`. -/
theorem findImports_ok_rel (r : Resolver) (flags : Flags) (recur : Bool)
    (rootPkgs : List String) (hwf : WellFormed r) :
    ∀ (fuel : Nat) (p : String) (st st' : BuildSt),
      findImports r flags recur rootPkgs fuel p st = .ok st' →
      ((∀ k, k ∈ keysOf st.idx → k ∈ keysOf st'.idx) ∧
        ∃ t, st'.log = st.log ++ t ∧ t.Nodup ∧
          ∀ q ∈ t, q ∈ keysOf st'.idx ∧ (q ∉ keysOf st.idx ∨ q = p) ∧ q ≠ "C") := by
  intro fuel
  induction fuel with
  | zero =>
    intro p st st' h
    exact absurd h (by simp [findImports])
  | succ fuel ih =>
    intro p st st' h
    rw [findImports] at h
    by_cases hpc : p = "C"
    · rw [if_pos hpc] at h
      cases h
      exact ⟨fun k hk => hk, [], by simp, by simp⟩
    · rw [if_neg hpc] at h
      cases hr : r p with
      | none =>
        rw [hr] at h
        exact Except.noConfusion h
      | some pkg =>
        rw [hr] at h
        have hip : pkg.importPath = p := hwf p pkg hr
        set st1 : BuildSt := ⟨ensureEntry st.idx pkg.importPath, st.log ++ [p]⟩ with hst1
        set R : BuildSt → BuildSt → Prop := fun s s' =>
          (∀ k, k ∈ keysOf s.idx → k ∈ keysOf s'.idx) ∧
          ∃ t, s'.log = s.log ++ t ∧ t.Nodup ∧
            ∀ q ∈ t, q ∈ keysOf s'.idx ∧ q ∉ keysOf s.idx ∧ q ≠ "C" with hR
        have hrefl : ∀ s, R s s := fun s => ⟨fun k hk => hk, [], by simp, by simp⟩
        have htrans : ∀ a b c, R a b → R b c → R a c := by
          rintro a b c ⟨hk1, t1, hl1, hn1, hq1⟩ ⟨hk2, t2, hl2, hn2, hq2⟩
          refine ⟨fun k hk => hk2 _ (hk1 _ hk), t1 ++ t2, ?_, ?_, ?_⟩
          · rw [hl2, hl1, List.append_assoc]
          · refine List.Nodup.append hn1 hn2 ?_
            intro q hq1m hq2m
            exact (hq2 q hq2m).2.1 ((hq1 q hq1m).1)
          · intro q hq
            rcases List.mem_append.mp hq with hqm | hqm
            · exact ⟨hk2 _ (hq1 q hqm).1, (hq1 q hqm).2.1, (hq1 q hqm).2.2⟩
            · exact ⟨(hq2 q hqm).1, fun hk => (hq2 q hqm).2.1 (hk1 _ hk), (hq2 q hqm).2.2⟩
        have hloop : R st1 st' := by
          refine except_foldlM_rel R hrefl htrans
            (importsOf flags pkg (rootPkgs.contains pkg.importPath)) _ ?_ st1 st' h
          rintro s a s' ha hs
          dsimp only at hs
          by_cases h1 : (!flags.std && isStdlib a) = true
          · rw [if_pos h1] at hs
            change Except.ok s = Except.ok s' at hs
            cases hs
            exact hrefl s
          · rw [if_neg h1] at hs
            by_cases h2 : (recur && !(assocFind s.idx a).isSome) = true
            · rw [if_pos h2] at hs
              obtain ⟨hk, t, hl, hn, hq⟩ :=
                ih a ⟨appendImp s.idx a pkg.importPath, s.log⟩ s' hs
              have hadone : a ∉ keysOf s.idx := by
                have h3 := ((Bool.and_eq_true _ _).mp h2).2
                rw [Bool.not_eq_true'] at h3
                intro hmem
                rw [(assocFind_isSome s.idx a).mpr hmem] at h3
                cases h3
              refine ⟨?_, t, hl, hn, ?_⟩
              · intro k hk0
                exact hk k ((mem_keysOf_appendImp s.idx a pkg.importPath k).mpr (Or.inl hk0))
              · intro q hqm
                obtain ⟨hq1, hq2, hq3⟩ := hq q hqm
                refine ⟨hq1, ?_, hq3⟩
                rcases hq2 with hq2 | hq2
                · intro hk0
                  exact hq2 ((mem_keysOf_appendImp s.idx a pkg.importPath q).mpr (Or.inl hk0))
                · subst hq2
                  exact hadone
            · rw [if_neg h2] at hs
              change Except.ok _ = Except.ok s' at hs
              cases hs
              refine ⟨?_, [], by simp, by simp⟩
              intro k hk0
              exact (mem_keysOf_appendImp s.idx a pkg.importPath k).mpr (Or.inl hk0)
        obtain ⟨hk, t, hl, hn, hq⟩ := hloop
        have hpk1 : p ∈ keysOf st1.idx := by
          rw [hst1]
          exact hip ▸ self_mem_ensureEntry st.idx pkg.importPath
        refine ⟨?_, p :: t, ?_, ?_, ?_⟩
        · intro k hk0
          refine hk k ?_
          rw [hst1]
          exact (mem_keysOf_ensureEntry st.idx pkg.importPath k).mpr (Or.inl hk0)
        · rw [hl, hst1]
          simp
        · rw [List.nodup_cons]
          exact ⟨fun hpm => (hq p hpm).2.1 hpk1, hn⟩
        · intro q hqm
          rcases List.mem_cons.mp hqm with hqe | hqm
          · subst hqe
            exact ⟨hk _ hpk1, Or.inr rfl, hpc⟩
          · obtain ⟨hq1, hq2, hq3⟩ := hq q hqm
            refine ⟨hq1, Or.inl ?_, hq3⟩
            intro hk0
            apply hq2
            rw [hst1]
            exact (mem_keysOf_ensureEntry st.idx pkg.importPath q).mpr (Or.inl hk0)

/-- No identifier logged as a resolver query is ever `"C"`: `findImports`
returns before resolving the cgo pseudo-package. -/
theorem findImports_no_c (r : Resolver) (flags : Flags) (recur : Bool)
    (rootPkgs : List String) :
    ∀ (fuel : Nat) (p : String) (st st' : BuildSt),
      findImports r flags recur rootPkgs fuel p st = .ok st' →
      ∀ q ∈ st'.log, q ∈ st.log ∨ q ≠ "C" := by
  intro fuel
  induction fuel with
  | zero =>
    intro p st st' h
    exact absurd h (by simp [findImports])
  | succ fuel ih =>
    intro p st st' h
    rw [findImports] at h
    by_cases hpc : p = "C"
    · rw [if_pos hpc] at h
      cases h
      exact fun q hq => Or.inl hq
    · rw [if_neg hpc] at h
      cases hr : r p with
      | none =>
        rw [hr] at h
        exact Except.noConfusion h
      | some pkg =>
        rw [hr] at h
        have hloop := except_foldlM_rel
          (fun s s' => ∀ q ∈ s'.log, q ∈ s.log ∨ q ≠ "C")
          (fun s q hq => Or.inl hq)
          (fun a b c h1 h2 q hq => by
            rcases h2 q hq with hq2 | hq2
            · exact h1 q hq2
            · exact Or.inr hq2)
          (importsOf flags pkg (rootPkgs.contains pkg.importPath)) _
          (by
            rintro s a s' ha hs
            dsimp only at hs
            by_cases h1 : (!flags.std && isStdlib a) = true
            · rw [if_pos h1] at hs
              change Except.ok s = Except.ok s' at hs
              cases hs
              exact fun q hq => Or.inl hq
            · rw [if_neg h1] at hs
              by_cases h2 : (recur && !(assocFind s.idx a).isSome) = true
              · rw [if_pos h2] at hs
                exact ih a ⟨appendImp s.idx a pkg.importPath, s.log⟩ s' hs
              · rw [if_neg h2] at hs
                change Except.ok _ = Except.ok s' at hs
                cases hs
                exact fun q hq => Or.inl hq)
          ⟨ensureEntry st.idx pkg.importPath, st.log ++ [p]⟩ st' h
        intro q hq
        rcases hloop q hq with hq1 | hq1
        · rcases List.mem_append.mp hq1 with hq2 | hq2
          · exact Or.inl hq2
          · rw [List.mem_singleton.mp hq2]
            exact Or.inr hpc
        · exact Or.inr hq1

theorem wf_rTwoRoots : WellFormed rTwoRoots := by
  intro q info h
  rw [rTwoRoots] at h
  split at h
  · next he =>
    cases h
    exact he.symm
  · split at h
    · next he2 =>
      cases h
      exact he2.symm
    · exact Option.noConfusion h

theorem wf_rStdRoot : WellFormed rStdRoot := by
  intro q info h
  rw [rStdRoot] at h
  split at h
  · next he =>
    cases h
    exact he.symm
  · split at h
    · next he2 =>
      cases h
      exact he2.symm
    · exact Option.noConfusion h

theorem wf_rCgo : WellFormed rCgo := by
  intro q info h
  rw [rCgo] at h
  split at h
  · next he =>
    cases h
    exact he.symm
  · exact Option.noConfusion h

theorem wf_rOneRoot : WellFormed rOneRoot := by
  intro q info h
  rw [rOneRoot] at h
  split at h
  · next he =>
    cases h
    exact he.symm
  · split at h
    · next he2 =>
      cases h
      exact he2.symm
    · exact Option.noConfusion h

/-- C2 counterexample: with two roots `a.com/a` and `a.com/b` where the first
one imports the second and recursive mode on, the whole build queries the resolver
twice for `a.com/b`: once while expanding `a.com/a` (at which point `a.com/b`
receives an index entry) and once again from the top-level per-root loop. -/
theorem c2_counterexample :
    isOkB (buildIndex rTwoRoots flagsD true ["a.com/a", "a.com/b"] 10) = true ∧
    (stLog (buildIndex rTwoRoots flagsD true ["a.com/a", "a.com/b"] 10)).count "a.com/b" = 2 := by
  decide

/-- C2 (amended): during the expansion of a single package, every queried
identifier gets an index entry, the resolver is queried at most once per
identifier, and an identifier that already had an index entry when the
expansion started is never queried (hence never expanded) again — except for
the expanded package itself, which the caller may re-submit.  (The top-level
loop of `main` does exactly that for every root, which is why a root reachable
from an earlier root is resolved twice across the whole build.) -/
theorem c2_single_expansion_queries_once :
    ∀ (r : Resolver) (flags : Flags) (recur : Bool) (rootPkgs : List String)
      (fuel : Nat) (p : String) (st st' : BuildSt),
      WellFormed r → findImports r flags recur rootPkgs fuel p st = .ok st' →
      ∃ t, st'.log = st.log ++ t ∧
        (∀ q ∈ t, q ∈ keysOf st'.idx) ∧
        (∀ q, t.count q ≤ 1) ∧
        (∀ q, q ∈ keysOf st.idx → q ≠ p → q ∉ t) := by
  intro r flags recur rootPkgs fuel p st st' hwf h
  obtain ⟨hk, t, hl, hn, hq⟩ := findImports_ok_rel r flags recur rootPkgs hwf fuel p st st' h
  refine ⟨t, hl, fun q hqm => (hq q hqm).1, ?_, ?_⟩
  · intro q
    exact List.nodup_iff_count_le_one.mp hn q
  · intro q hmem hne hqm
    rcases (hq q hqm).2.1 with hq2 | hq2
    · exact hq2 hmem
    · exact hne hq2

/-- C2 witness: the single-expansion guarantee evaluated on a concrete
recursive run from one root. -/
theorem c2_witness :
    ∃ (st' : BuildSt) (t : List String),
      findImports rTwoRoots flagsD true ["a.com/a"] 10 "a.com/a" ⟨[], []⟩ = .ok st' ∧
      st'.log = ([] : List String) ++ t ∧ (∀ q, t.count q ≤ 1) := by
  cases hrun : findImports rTwoRoots flagsD true ["a.com/a"] 10 "a.com/a" ⟨[], []⟩ with
  | error e =>
    have hok : isOkB (findImports rTwoRoots flagsD true ["a.com/a"] 10 "a.com/a" ⟨[], []⟩)
        = true := by decide
    rw [hrun] at hok
    exact absurd hok (by simp [isOkB])
  | ok st' =>
    obtain ⟨t, h1, _, h3, _⟩ := c2_single_expansion_queries_once rTwoRoots flagsD true
      ["a.com/a"] 10 "a.com/a" ⟨[], []⟩ st' wf_rTwoRoots hrun
    exact ⟨st', t, rfl, h1, h3⟩

/-- C10: the pseudo-import `"C"` is never submitted to the resolver in any
build (the query log never contains it), yet in a concrete recursive run with
stdlib inclusion on, a package importing `"C"` leaves `"C"` as an index key
whose importer list records the importing package. -/
theorem c10_cgo_pseudo_import :
    (∀ (r : Resolver) (flags : Flags) (recur : Bool) (roots : List String) (fuel : Nat),
      "C" ∉ stLog (buildIndex r flags recur roots fuel)) ∧
    "C" ∈ keysOf (stIdx (buildIndex rCgo flagsStd true ["a.com/x"] 5)) ∧
    lookupImps (stIdx (buildIndex rCgo flagsStd true ["a.com/x"] 5)) "C" = ["a.com/x"] := by
  refine ⟨?_, by decide, by decide⟩
  intro r flags recur roots fuel
  cases hrun : buildIndex r flags recur roots fuel with
  | error e => simp [stLog]
  | ok st =>
    rw [buildIndex] at hrun
    have hall := except_foldlM_rel
      (fun (s s' : BuildSt) => ∀ q ∈ s'.log, q ∈ s.log ∨ q ≠ "C")
      (fun s q hq => Or.inl hq)
      (fun a b c h1 h2 q hq => by
        rcases h2 q hq with hq2 | hq2
        · exact h1 q hq2
        · exact Or.inr hq2)
      roots _
      (fun s a s' _ hs => findImports_no_c r flags recur roots fuel a s s' hs)
      ⟨[], []⟩ st hrun
    simp only [stLog]
    intro hc
    rcases hall "C" hc with hq | hq
    · exact absurd hq (List.not_mem_nil "C")
    · exact hq rfl

/-- With `recur = false` the loop never recurses, so the keys produced by one
`findImports` call are the old keys, the resolved package's canonical path,
and members of its computed import set. -/
theorem findImports_norec_keys (r : Resolver) (flags : Flags) (rootPkgs : List String) :
    ∀ (fuel : Nat) (p : String) (st st' : BuildSt),
      findImports r flags false rootPkgs fuel p st = .ok st' →
      ∀ k, k ∈ keysOf st'.idx →
        k ∈ keysOf st.idx ∨ ∃ info, r p = some info ∧
          (k = info.importPath ∨ k ∈ importsOf flags info (rootPkgs.contains info.importPath)) := by
  intro fuel p st st' h
  cases fuel with
  | zero => exact absurd h (by simp [findImports])
  | succ fuel =>
    rw [findImports] at h
    by_cases hpc : p = "C"
    · rw [if_pos hpc] at h
      cases h
      exact fun k hk => Or.inl hk
    · rw [if_neg hpc] at h
      cases hr : r p with
      | none =>
        rw [hr] at h
        exact Except.noConfusion h
      | some pkg =>
        rw [hr] at h
        have hloop := except_foldlM_rel
          (fun s s' => ∀ k, k ∈ keysOf s'.idx →
            k ∈ keysOf s.idx ∨ k ∈ importsOf flags pkg (rootPkgs.contains pkg.importPath))
          (fun s k hk => Or.inl hk)
          (fun a b c h1 h2 k hk => by
            rcases h2 k hk with hk2 | hk2
            · exact h1 k hk2
            · exact Or.inr hk2)
          (importsOf flags pkg (rootPkgs.contains pkg.importPath)) _
          (by
            rintro s a s' ha hs
            dsimp only at hs
            by_cases h1 : (!flags.std && isStdlib a) = true
            · rw [if_pos h1] at hs
              change Except.ok s = Except.ok s' at hs
              cases hs
              exact fun k hk => Or.inl hk
            · rw [if_neg h1] at hs
              rw [if_neg (by simp)] at hs
              change Except.ok _ = Except.ok s' at hs
              cases hs
              intro k hk
              rcases (mem_keysOf_appendImp s.idx a pkg.importPath k).mp hk with hk2 | hk2
              · exact Or.inl hk2
              · exact Or.inr (hk2 ▸ ha))
          ⟨ensureEntry st.idx pkg.importPath, st.log ++ [p]⟩ st' h
        intro k hk
        rcases hloop k hk with hk1 | hk1
        · rcases (mem_keysOf_ensureEntry st.idx pkg.importPath k).mp hk1 with hk2 | hk2
          · exact Or.inl hk2
          · exact Or.inr ⟨pkg, rfl, Or.inl hk2⟩
        · exact Or.inr ⟨pkg, rfl, Or.inr hk1⟩

theorem mem_keysOf_deleteRoots (roots : List String) (idx : Index) (k : String) :
    k ∈ keysOf (deleteRoots roots idx) ↔ k ∈ keysOf idx ∧ k ∉ roots := by
  simp only [deleteRoots, keysOf, List.mem_map, List.mem_filter]
  constructor
  · rintro ⟨kv, ⟨hmem, hpred⟩, rfl⟩
    refine ⟨⟨kv, hmem, rfl⟩, ?_⟩
    intro hr
    rw [Bool.not_eq_true'] at hpred
    have h1 : List.elem kv.1 roots = true := List.elem_iff.mpr hr
    have h2 : List.elem kv.1 roots = false := hpred
    rw [h1] at h2
    cases h2
  · rintro ⟨⟨kv, hmem, rfl⟩, hnr⟩
    refine ⟨kv, ⟨hmem, ?_⟩, rfl⟩
    rw [Bool.not_eq_true']
    exact Bool.eq_false_iff.mpr (fun hc => hnr (List.elem_iff.mp hc))

/-- Keys of a non-recursive whole build: each comes from some root's resolved
package — either its canonical path or a member of its import set. -/
theorem buildIndex_norec_keys (r : Resolver) (flags : Flags) (roots : List String)
    (fuel : Nat) (st : BuildSt) (h : buildIndex r flags false roots fuel = .ok st) :
    ∀ k ∈ keysOf st.idx, ∃ p ∈ roots, ∃ info, r p = some info ∧
      (k = info.importPath ∨ k ∈ importsOf flags info (roots.contains info.importPath)) := by
  rw [buildIndex] at h
  have hall := except_foldlM_rel
    (fun (s s' : BuildSt) => ∀ k ∈ keysOf s'.idx,
      k ∈ keysOf s.idx ∨ ∃ p ∈ roots, ∃ info, r p = some info ∧
        (k = info.importPath ∨ k ∈ importsOf flags info (roots.contains info.importPath)))
    (fun s k hk => Or.inl hk)
    (fun a b c h1 h2 k hk => by
      rcases h2 k hk with hk2 | hk2
      · exact h1 k hk2
      · exact Or.inr hk2)
    roots _
    (fun s a s' ha hs => by
      intro k hk
      rcases findImports_norec_keys r flags roots fuel a s s' hs k hk with hk2 | hk2
      · exact Or.inl hk2
      · obtain ⟨info, hri, hcase⟩ := hk2
        exact Or.inr ⟨a, ha, info, hri, hcase⟩)
    ⟨[], []⟩ st h
  intro k hk
  rcases hall k hk with hk1 | hk1
  · exact absurd hk1 (by simp [keysOf])
  · exact hk1

/-- C1: after a non-recursive build and root deletion, every key of the
presented index is a direct import (non-test, or test import of a root when
test deps are enabled) of some root, and no root remains a key. -/
theorem c1_nonrecursive_presented_index :
    ∀ (r : Resolver) (flags : Flags) (roots : List String) (fuel : Nat) (st : BuildSt),
      WellFormed r → buildIndex r flags false roots fuel = .ok st →
      (∀ k ∈ keysOf (deleteRoots roots st.idx),
        ∃ p ∈ roots, ∃ info, r p = some info ∧
          (k ∈ info.imports ∨
            (flags.noTestDeps = false ∧ (k ∈ info.testImports ∨ k ∈ info.xtestImports)))) ∧
      (∀ p ∈ roots, p ∉ keysOf (deleteRoots roots st.idx)) := by
  intro r flags roots fuel st hwf h
  constructor
  · intro k hk
    rw [mem_keysOf_deleteRoots] at hk
    obtain ⟨hk1, hk2⟩ := hk
    obtain ⟨p, hp, info, hri, hcase⟩ := buildIndex_norec_keys r flags roots fuel st h k hk1
    have hip : info.importPath = p := hwf p info hri
    rcases hcase with hc | hc
    · rw [hip] at hc
      exact absurd (hc ▸ hp) hk2
    · refine ⟨p, hp, info, hri, ?_⟩
      rw [mem_importsOf] at hc
      rcases hc.1 with h1 | ⟨_, h2, h3⟩
      · exact Or.inl h1
      · exact Or.inr ⟨h2, h3⟩
  · intro p hp hmem
    rw [mem_keysOf_deleteRoots] at hmem
    exact hmem.2 hp

/-- C1 witness: the non-recursive presented index for one concrete root. -/
theorem c1_witness :
    ("a.com/a" ∉ keysOf (deleteRoots ["a.com/a"]
        (stIdx (buildIndex rOneRoot flagsD false ["a.com/a"] 5)))) ∧
    (∀ k ∈ keysOf (deleteRoots ["a.com/a"]
        (stIdx (buildIndex rOneRoot flagsD false ["a.com/a"] 5))),
      ∃ p ∈ ["a.com/a"], ∃ info, rOneRoot p = some info ∧
        (k ∈ info.imports ∨
          (flagsD.noTestDeps = false ∧ (k ∈ info.testImports ∨ k ∈ info.xtestImports)))) := by
  have hrun : buildIndex rOneRoot flagsD false ["a.com/a"] 5 =
      .ok ⟨[("a.com/a", []), ("a.com/b", ["a.com/a"])], ["a.com/a"]⟩ := by decide
  have hmain := c1_nonrecursive_presented_index rOneRoot flagsD ["a.com/a"] 5
    ⟨[("a.com/a", []), ("a.com/b", ["a.com/a"])], ["a.com/a"]⟩ wf_rOneRoot hrun
  rw [hrun]
  exact ⟨hmain.2 "a.com/a" (by decide), hmain.1⟩

/-- With `-stdlib` off, expanding a non-stdlib package preserves the invariant
that no stdlib identifier occurs in the index, as key or importer. -/
theorem findImports_std_free (r : Resolver) (flags : Flags) (recur : Bool)
    (rootPkgs : List String) (hwf : WellFormed r) (hstd : flags.std = false) :
    ∀ (fuel : Nat) (p : String) (st st' : BuildSt), isStdlib p = false →
      findImports r flags recur rootPkgs fuel p st = .ok st' →
      ((∀ k ∈ keysOf st.idx, isStdlib k = false) ∧
        (∀ k x, x ∈ lookupImps st.idx k → isStdlib x = false)) →
      ((∀ k ∈ keysOf st'.idx, isStdlib k = false) ∧
        (∀ k x, x ∈ lookupImps st'.idx k → isStdlib x = false)) := by
  intro fuel
  induction fuel with
  | zero =>
    intro p st st' _ h
    exact absurd h (by simp [findImports])
  | succ fuel ih =>
    intro p st st' hps h hP
    rw [findImports] at h
    by_cases hpc : p = "C"
    · rw [if_pos hpc] at h
      cases h
      exact hP
    · rw [if_neg hpc] at h
      cases hr : r p with
      | none =>
        rw [hr] at h
        exact Except.noConfusion h
      | some pkg =>
        rw [hr] at h
        have hip : pkg.importPath = p := hwf p pkg hr
        have hP1 : (∀ k ∈ keysOf (ensureEntry st.idx pkg.importPath), isStdlib k = false) ∧
            (∀ k x, x ∈ lookupImps (ensureEntry st.idx pkg.importPath) k →
              isStdlib x = false) := by
          constructor
          · intro k hk
            rcases (mem_keysOf_ensureEntry st.idx pkg.importPath k).mp hk with hk2 | hk2
            · exact hP.1 k hk2
            · rw [hk2, hip]
              exact hps
          · intro k x hx
            rw [lookupImps_ensureEntry] at hx
            exact hP.2 k x hx
        refine except_foldlM_inv
          (fun s : BuildSt => (∀ k ∈ keysOf s.idx, isStdlib k = false) ∧
            (∀ k x, x ∈ lookupImps s.idx k → isStdlib x = false))
          (importsOf flags pkg (rootPkgs.contains pkg.importPath)) _
          ?_ _ st' h hP1
        rintro s a s' ha hs hsP
        dsimp only at hs
        by_cases h1 : (!flags.std && isStdlib a) = true
        · rw [if_pos h1] at hs
          change Except.ok s = Except.ok s' at hs
          cases hs
          exact hsP
        · have hsa : isStdlib a = false := by
            rw [hstd] at h1
            simpa using h1
          rw [if_neg h1] at hs
          have hP3 : (∀ k ∈ keysOf (appendImp s.idx a pkg.importPath), isStdlib k = false) ∧
              (∀ k x, x ∈ lookupImps (appendImp s.idx a pkg.importPath) k →
                isStdlib x = false) := by
            constructor
            · intro k hk
              rcases (mem_keysOf_appendImp s.idx a pkg.importPath k).mp hk with hk2 | hk2
              · exact hsP.1 k hk2
              · rw [hk2]
                exact hsa
            · intro k x hx
              rw [lookupImps_appendImp] at hx
              split at hx
              · rcases List.mem_append.mp hx with hx2 | hx2
                · exact hsP.2 a x hx2
                · rw [List.mem_singleton.mp hx2, hip]
                  exact hps
              · exact hsP.2 k x hx
          by_cases h2 : (recur && !(assocFind s.idx a).isSome) = true
          · rw [if_pos h2] at hs
            exact ih a ⟨appendImp s.idx a pkg.importPath, s.log⟩ s' hsa hs hP3
          · rw [if_neg h2] at hs
            change Except.ok _ = Except.ok s' at hs
            cases hs
            exact hP3

/-- C4 counterexample: a root classified as standard-distribution appears in
the built index (as a key and inside an importer list) even though `-stdlib`
is off. -/
theorem c4_counterexample :
    isStdlib "strconv" = true ∧
    isOkB (buildIndex rStdRoot flagsD true ["strconv"] 5) = true ∧
    "strconv" ∈ keysOf (stIdx (buildIndex rStdRoot flagsD true ["strconv"] 5)) ∧
    "strconv" ∈ lookupImps (stIdx (buildIndex rStdRoot flagsD true ["strconv"] 5)) "x.com/y" := by
  decide

/-- C4 (amended): when `-stdlib` is off and no root is itself classified as
standard-distribution, no standard-distribution identifier occurs anywhere in
the built index, neither as a key nor in any importer list. -/
theorem c4_no_stdlib_in_index :
    ∀ (r : Resolver) (flags : Flags) (recur : Bool) (roots : List String)
      (fuel : Nat) (st : BuildSt),
      flags.std = false → WellFormed r → (∀ p ∈ roots, isStdlib p = false) →
      buildIndex r flags recur roots fuel = .ok st →
      (∀ k ∈ keysOf st.idx, isStdlib k = false) ∧
      (∀ k x, x ∈ lookupImps st.idx k → isStdlib x = false) := by
  intro r flags recur roots fuel st hstd hwf hroots h
  rw [buildIndex] at h
  refine except_foldlM_inv
    (fun s : BuildSt => (∀ k ∈ keysOf s.idx, isStdlib k = false) ∧
      (∀ k x, x ∈ lookupImps s.idx k → isStdlib x = false))
    roots _ ?_ _ st h ?_
  · rintro s a s' ha hs hsP
    exact findImports_std_free r flags recur roots hwf hstd fuel a s s' (hroots a ha) hs hsP
  · constructor
    · intro k hk
      exact absurd hk (by simp [keysOf])
    · intro k x hx
      exact absurd hx (by simp [lookupImps, assocFind])

/-- C4 witness: the amended invariant evaluated on a concrete recursive build
from a non-stdlib root, at the concrete key `a.com/b`. -/
theorem c4_witness : isStdlib "a.com/b" = false :=
  (c4_no_stdlib_in_index rOneRoot flagsD true ["a.com/a"] 6
    ⟨[("a.com/a", []), ("a.com/b", ["a.com/a"])], ["a.com/a", "a.com/b"]⟩
    rfl wf_rOneRoot (by decide) (by decide)).1 "a.com/b" (by decide)

/-- C6 counterexample: with stdlib inclusion disabled, the computed import set
of a package does not contain its direct non-test stdlib import `fmt`, so the
computed set does not always contain all direct non-test imports. -/
theorem c6_counterexample :
    "fmt" ∈ pkgNonTest.imports ∧ "fmt" ∉ importsOf flagsD pkgNonTest true := by
  decide

/-- C6 (amended): the computed import set of a processed package contains
exactly the direct non-test imports, together with the direct test and
external-test imports when the package is a member of the root set and
test-dependency inclusion is enabled, restricted to identifiers that survive
the standard-distribution filter. -/
theorem c6_import_set_characterization :
    ∀ (flags : Flags) (rootPkgs : List String) (pkg : PackageInfo) (name : String),
      name ∈ importsOf flags pkg (rootPkgs.contains pkg.importPath) ↔
        ((name ∈ pkg.imports ∨
            (rootPkgs.contains pkg.importPath = true ∧ flags.noTestDeps = false ∧
              (name ∈ pkg.testImports ∨ name ∈ pkg.xtestImports))) ∧
          (flags.std = true ∨ isStdlib name = false)) :=
  fun flags rootPkgs pkg name => mem_importsOf flags pkg _ name

/-! ### The chain finder -/

theorem getLastD_eq_getLast (l : List String) (h : l ≠ []) (d : String) :
    l.getLastD d = l.getLast h := by
  rw [List.getLastD_eq_getLast?, List.getLast?_eq_getLast l h]
  rfl

theorem dropLast_append_getLastD (l : List String) (h : l ≠ []) (d : String) :
    l.dropLast ++ [l.getLastD d] = l := by
  rw [getLastD_eq_getLast l h d]
  exact List.dropLast_concat_getLast h

theorem mem_of_ne_nil (l : List String) (h : l ≠ []) (x : String) (hx : x ∈ l) :
    x ∈ l.dropLast ∨ x = l.getLastD "" := by
  rw [← dropLast_append_getLastD l h ""] at hx
  rcases List.mem_append.mp hx with hx | hx
  · exact Or.inl hx
  · exact Or.inr (List.mem_singleton.mp hx)

/-- The visited set only grows during a chain search. -/
theorem iter_vis_mono (rootPkgs : List String) (idx : Index) :
    ∀ (fuel : Nat) (chain visited : List String),
      visited ⊆ (iterDepChains1 rootPkgs idx fuel chain visited).2 := by
  intro fuel
  induction fuel with
  | zero =>
    intro chain visited
    rw [iterDepChains1]
    exact fun x hx => hx
  | succ fuel ih =>
    intro chain visited
    rw [iterDepChains1]
    split
    · exact fun x hx => hx
    · split
      · exact fun x hx => hx
      · have hfold : ∀ (imps : List String) (acc : List (List String) × List String),
            acc.2 ⊆ (imps.foldl (fun acc importer =>
              (acc.1 ++ (iterDepChains1 rootPkgs idx fuel (chain ++ [importer]) acc.2).1,
                (iterDepChains1 rootPkgs idx fuel (chain ++ [importer]) acc.2).2)) acc).2 := by
          intro imps
          induction imps with
          | nil => intro acc; exact fun x hx => hx
          | cons imp imps ihi =>
            intro acc
            rw [List.foldl_cons]
            exact fun x hx => ihi _ (ih (chain ++ [imp]) acc.2 hx)
        exact fun x hx => hfold _ _ (List.mem_cons_of_mem _ hx)

/-- Every chain emitted by `iterDepChains1` extends the current chain, ends at
a root, repeats no package and follows recorded importer edges, provided the
current chain already satisfies the search invariants. -/
theorem iter_emit (rootPkgs : List String) (idx : Index) :
    ∀ (fuel : Nat) (chain visited : List String),
      chain ≠ [] →
      List.Chain' (fun a b => b ∈ lookupImps idx a) chain →
      (∀ x ∈ chain.dropLast, x ∈ visited) →
      (∀ x ∈ chain.dropLast, rootPkgs.contains x = false) →
      chain.Nodup →
      ∀ ch ∈ (iterDepChains1 rootPkgs idx fuel chain visited).1,
        chain <+: ch ∧ rootPkgs.contains (ch.getLastD "") = true ∧ ch.Nodup ∧
          List.Chain' (fun a b => b ∈ lookupImps idx a) ch := by
  intro fuel
  induction fuel with
  | zero =>
    intro chain visited _ _ _ _ _ ch hch
    rw [iterDepChains1] at hch
    exact absurd hch (List.not_mem_nil ch)
  | succ fuel ih =>
    intro chain visited hne hchain hvis hnr hnd ch hch
    rw [iterDepChains1] at hch
    split at hch
    · next hroot =>
      rw [List.mem_singleton] at hch
      subst hch
      exact ⟨List.prefix_refl _, hroot, hnd, hchain⟩
    · next hroot =>
      split at hch
      · exact absurd hch (List.not_mem_nil ch)
      · next hvisited =>
        have hchmem : ∀ x ∈ chain, rootPkgs.contains x = false := by
          intro x hx
          rcases mem_of_ne_nil chain hne x hx with hx2 | hx2
          · exact hnr x hx2
          · rw [hx2]
            exact Bool.not_eq_true _ |>.mp hroot
        have hfold : ∀ (imps : List String) (acc : List (List String) × List String),
            (∀ i ∈ imps, i ∈ lookupImps idx (chain.getLastD "")) →
            (∀ x ∈ chain, x ∈ acc.2) →
            (∀ ch' ∈ acc.1,
              chain <+: ch' ∧ rootPkgs.contains (ch'.getLastD "") = true ∧ ch'.Nodup ∧
                List.Chain' (fun a b => b ∈ lookupImps idx a) ch') →
            ∀ ch' ∈ (imps.foldl (fun acc importer =>
                (acc.1 ++ (iterDepChains1 rootPkgs idx fuel (chain ++ [importer]) acc.2).1,
                  (iterDepChains1 rootPkgs idx fuel (chain ++ [importer]) acc.2).2)) acc).1,
              chain <+: ch' ∧ rootPkgs.contains (ch'.getLastD "") = true ∧ ch'.Nodup ∧
                List.Chain' (fun a b => b ∈ lookupImps idx a) ch' := by
          intro imps
          induction imps with
          | nil =>
            intro acc _ _ hacc
            exact hacc
          | cons imp imps ihi =>
            intro acc himps hsub hacc
            rw [List.foldl_cons]
            have hedge : imp ∈ lookupImps idx (chain.getLastD "") :=
              himps imp (List.mem_cons_self imp imps)
            have hchain' : List.Chain' (fun a b => b ∈ lookupImps idx a) (chain ++ [imp]) := by
              rw [List.chain'_append]
              refine ⟨hchain, List.chain'_singleton imp, ?_⟩
              intro x hx y hy
              rw [List.head?_cons, Option.mem_some_iff] at hy
              have hxl : x = chain.getLastD "" := by
                rw [List.getLastD_eq_getLast?]
                rw [Option.mem_def] at hx
                rw [hx]
                rfl
              rw [← hy, hxl]
              exact hedge
            have hchild : ∀ ch' ∈ (iterDepChains1 rootPkgs idx fuel (chain ++ [imp]) acc.2).1,
                chain <+: ch' ∧ rootPkgs.contains (ch'.getLastD "") = true ∧ ch'.Nodup ∧
                  List.Chain' (fun a b => b ∈ lookupImps idx a) ch' := by
              by_cases hcr : rootPkgs.contains imp = true
              · cases fuel with
                | zero =>
                  intro ch' hch'
                  rw [iterDepChains1] at hch'
                  exact absurd hch' (List.not_mem_nil ch')
                | succ fuel2 =>
                  intro ch' hch'
                  rw [iterDepChains1] at hch'
                  rw [List.getLastD_concat] at hch'
                  rw [if_pos hcr] at hch'
                  rw [List.mem_singleton] at hch'
                  subst hch'
                  refine ⟨List.prefix_append chain [imp], ?_, ?_, hchain'⟩
                  · rw [List.getLastD_concat]
                    exact hcr
                  · have himpchain : imp ∉ chain := by
                      intro hmem
                      rw [hchmem imp hmem] at hcr
                      cases hcr
                    simp [List.nodup_append, hnd, himpchain]
              · by_cases hcv : imp ∈ acc.2
                · cases fuel with
                  | zero =>
                    intro ch' hch'
                    rw [iterDepChains1] at hch'
                    exact absurd hch' (List.not_mem_nil ch')
                  | succ fuel2 =>
                    intro ch' hch'
                    rw [iterDepChains1] at hch'
                    rw [List.getLastD_concat] at hch'
                    rw [if_neg hcr, if_pos hcv] at hch'
                    exact absurd hch' (List.not_mem_nil ch')
                · have himpchain : imp ∉ chain := fun hmem => hcv (hsub imp hmem)
                  intro ch' hch'
                  have := ih (chain ++ [imp]) acc.2 (by simp)
                    hchain'
                    (by
                      rw [List.dropLast_concat]
                      exact hsub)
                    (by
                      rw [List.dropLast_concat]
                      exact hchmem)
                    (by simp [List.nodup_append, hnd, himpchain])
                    ch' hch'
                  obtain ⟨hp, h2, h3, h4⟩ := this
                  exact ⟨(List.prefix_append chain [imp]).trans hp, h2, h3, h4⟩
            apply ihi
            · intro i hi
              exact himps i (List.mem_cons_of_mem _ hi)
            · intro x hx
              exact iter_vis_mono rootPkgs idx fuel (chain ++ [imp]) acc.2 (hsub x hx)
            · intro ch' hch'
              rcases List.mem_append.mp hch' with hch2 | hch2
              · exact hacc ch' hch2
              · exact hchild ch' hch2
        refine hfold (lookupImps idx (chain.getLastD "")) ([], chain.getLastD "" :: visited)
          (fun i hi => hi) ?_ (by intro ch' hch'; exact absurd hch' (List.not_mem_nil ch'))
          ch hch
        intro x hx
        rcases mem_of_ne_nil chain hne x hx with hx2 | hx2
        · exact List.mem_cons_of_mem _ (hvis x hx2)
        · rw [hx2]
          exact List.mem_cons_self _ _

/-- C5: every chain yielded by the chain finder for a queried leaf, read
root-to-leaf (reversed), begins at a package of the root set, ends at the
queried leaf, has a recorded importer edge between each consecutive pair
(each earlier package directly imports the next), and repeats no package. -/
theorem c5_chain_finder_soundness :
    ∀ (rootPkgs : List String) (idx : Index) (fuel : Nat) (leaf : String)
      (ch : List String), ch ∈ iterDepChains rootPkgs idx fuel leaf →
      (∃ rt, ch.reverse.head? = some rt ∧ rootPkgs.contains rt = true) ∧
      ch.reverse.getLast? = some leaf ∧
      ch.reverse.Nodup ∧
      List.Chain' (fun a b => a ∈ lookupImps idx b) ch.reverse := by
  intro rootPkgs idx fuel leaf ch hch
  rw [iterDepChains] at hch
  have hemit := iter_emit rootPkgs idx fuel [leaf] [] (by simp)
    (List.chain'_singleton leaf) (by simp) (by simp) (by simp) ch hch
  obtain ⟨hp, hroot, hnd, hchain⟩ := hemit
  have hchne : ch ≠ [] := by
    obtain ⟨t, ht⟩ := hp
    intro hnil
    rw [hnil] at ht
    exact absurd ht (by simp)
  constructor
  · refine ⟨ch.getLastD "", ?_, hroot⟩
    rw [List.head?_reverse, getLastD_eq_getLast ch hchne, List.getLast?_eq_getLast ch hchne]
  constructor
  · rw [List.getLast?_reverse]
    obtain ⟨t, ht⟩ := hp
    rw [← ht]
    rfl
  constructor
  · exact List.nodup_reverse.mpr hnd
  · exact List.chain'_reverse.mpr hchain

/-- C5 witness: a concrete emitted chain from `idxWhy` satisfies all four
properties. -/
theorem c5_witness :
    (["a.com/l1", "a.com/app"] ∈ iterDepChains ["a.com/app"] idxWhy 10 "a.com/l1") ∧
    ((∃ rt, (["a.com/l1", "a.com/app"] : List String).reverse.head? = some rt ∧
        (["a.com/app"] : List String).contains rt = true) ∧
      (["a.com/l1", "a.com/app"] : List String).reverse.getLast? = some "a.com/l1" ∧
      (["a.com/l1", "a.com/app"] : List String).reverse.Nodup ∧
      List.Chain' (fun a b => a ∈ lookupImps idxWhy b)
        (["a.com/l1", "a.com/app"] : List String).reverse) :=
  ⟨by decide,
    c5_chain_finder_soundness ["a.com/app"] idxWhy 10 "a.com/l1"
      ["a.com/l1", "a.com/app"] (by decide)⟩

/-! ### Chain collection and the per-root cap -/

theorem foldl_inv {β α : Type} (P : β → Prop) (l : List α) (step : β → α → β)
    (h : ∀ b a, a ∈ l → P b → P (step b a)) : ∀ b, P b → P (l.foldl step b) := by
  induction l with
  | nil => intro b hb; exact hb
  | cons a l ih =>
    intro b hb
    rw [List.foldl_cons]
    exact ih (fun b a ha hb => h b a (List.mem_cons_of_mem _ ha) hb) _
      (h b a (List.mem_cons_self a l) hb)

theorem bucketOf_assocSet (m : List (String × List (List String))) (k : String)
    (v : List (List String)) (rt : String) :
    bucketOf (assocSet m k v) rt = if rt = k then v else bucketOf m rt := by
  rw [bucketOf, assocFind_assocSet]
  split
  · rfl
  · rfl

theorem recordChain_mono (limit : Nat) (m : List (String × List (List String)))
    (ch : List String) (rt : String) (x : List String) (hx : x ∈ bucketOf m rt) :
    x ∈ bucketOf (recordChain limit m ch) rt := by
  rw [recordChain]
  cases hl : ch.getLast? with
  | none => exact hx
  | some root =>
    dsimp only
    split
    · exact hx
    · rw [bucketOf_assocSet]
      split
      · next he =>
        subst he
        exact List.mem_append.mpr (Or.inl hx)
      · exact hx

theorem recordChain_cap (limit : Nat) (m : List (String × List (List String)))
    (ch : List String) (hpos : 0 < limit)
    (hm : ∀ rt, (bucketOf m rt).length ≤ limit) :
    ∀ rt, (bucketOf (recordChain limit m ch) rt).length ≤ limit := by
  intro rt
  rw [recordChain]
  cases hl : ch.getLast? with
  | none => exact hm rt
  | some root =>
    dsimp only
    split
    · exact hm rt
    · next hcap =>
      rw [bucketOf_assocSet]
      split
      · next he =>
        simp only [Bool.and_eq_true, decide_eq_true_eq, not_and] at hcap
        rw [List.length_append, List.length_singleton]
        have := hcap hpos
        omega
      · exact hm rt

theorem recordChain_zero_adds (m : List (String × List (List String)))
    (ch : List String) (root : String) (hne : ch.getLast? = some root) :
    ch.reverse ∈ bucketOf (recordChain 0 m ch) root := by
  rw [recordChain, hne]
  dsimp only
  rw [if_neg (by simp)]
  rw [bucketOf_assocSet, if_pos rfl]
  exact List.mem_append.mpr (Or.inr (List.mem_singleton.mpr rfl))

theorem foldl_recordChain_mono (limit : Nat) (l : List (List String)) :
    ∀ (m : List (String × List (List String))) (rt : String) (x : List String),
      x ∈ bucketOf m rt → x ∈ bucketOf (l.foldl (recordChain limit) m) rt := by
  induction l with
  | nil => intro m rt x hx; exact hx
  | cons ch l ih =>
    intro m rt x hx
    rw [List.foldl_cons]
    exact ih _ rt x (recordChain_mono limit m ch rt x hx)

theorem foldl_recordChain_zero_adds (l : List (List String)) :
    ∀ (m : List (String × List (List String))) (ch : List String) (root : String),
      ch ∈ l → ch.getLast? = some root →
      ch.reverse ∈ bucketOf (l.foldl (recordChain 0) m) root := by
  induction l with
  | nil =>
    intro m ch root hch _
    exact absurd hch (List.not_mem_nil ch)
  | cons ch0 l ih =>
    intro m ch root hch hne
    rw [List.foldl_cons]
    rcases List.mem_cons.mp hch with hch2 | hch2
    · subst hch2
      exact foldl_recordChain_mono 0 l _ root ch.reverse (recordChain_zero_adds m ch root hne)
    · exact ih _ ch root hch2 hne

theorem collectChains_outer_mono (fuel limit : Nat) (whyM : String → Bool)
    (rootPkgs : List String) (idx : Index) (order : List String) :
    ∀ (m : List (String × List (List String))) (rt : String) (x : List String),
      x ∈ bucketOf m rt →
      x ∈ bucketOf (order.foldl (fun m pkg =>
        if whyM pkg then (iterDepChains rootPkgs idx fuel pkg).foldl (recordChain limit) m
        else m) m) rt := by
  induction order with
  | nil => intro m rt x hx; exact hx
  | cons o os ih =>
    intro m rt x hx
    rw [List.foldl_cons]
    apply ih
    split
    · exact foldl_recordChain_mono limit _ m rt x hx
    · exact hx

theorem collectChains_zero_reaches (fuel : Nat) (whyM : String → Bool)
    (rootPkgs : List String) (idx : Index) :
    ∀ (order : List String) (m : List (String × List (List String))) (pkg : String),
      pkg ∈ order → whyM pkg = true →
      ∀ ch ∈ iterDepChains rootPkgs idx fuel pkg, ∀ root, ch.getLast? = some root →
      ch.reverse ∈ bucketOf (order.foldl (fun m pkg =>
        if whyM pkg then (iterDepChains rootPkgs idx fuel pkg).foldl (recordChain 0) m
        else m) m) root := by
  intro order
  induction order with
  | nil =>
    intro m pkg hpkg
    exact absurd hpkg (List.not_mem_nil pkg)
  | cons o os ih =>
    intro m pkg hpkg hwhy ch hch root hroot
    rw [List.foldl_cons]
    rcases List.mem_cons.mp hpkg with he | hmem
    · subst he
      apply collectChains_outer_mono fuel 0 whyM rootPkgs idx os
      rw [if_pos hwhy]
      exact foldl_recordChain_zero_adds _ m ch root hch hroot
    · exact ih _ pkg hmem hwhy ch hch root hroot

/-- C8: when chains are collected across all matching leaves with a positive
limit, at most `limit` chains are kept per terminal root; with limit 0 every
chain the finder yields for a matching leaf is kept in its root's bucket. -/
theorem c8_per_root_cap :
    ∀ (fuel limit : Nat) (whyM : String → Bool) (order rootPkgs : List String)
      (idx : Index),
      (0 < limit →
        ∀ rt, (bucketOf (collectChains fuel limit whyM order rootPkgs idx) rt).length ≤ limit) ∧
      (limit = 0 →
        ∀ pkg ∈ order, whyM pkg = true →
        ∀ ch ∈ iterDepChains rootPkgs idx fuel pkg, ∀ root, ch.getLast? = some root →
          ch.reverse ∈ bucketOf (collectChains fuel limit whyM order rootPkgs idx) root) := by
  intro fuel limit whyM order rootPkgs idx
  constructor
  · intro hpos rt
    rw [collectChains]
    refine foldl_inv (fun m => ∀ rt, (bucketOf m rt).length ≤ limit) order _ ?_ [] ?_ rt
    · intro m pkg _ hm
      split
      · exact foldl_inv (fun m => ∀ rt, (bucketOf m rt).length ≤ limit) _ _
          (fun m ch _ hm => recordChain_cap limit m ch hpos hm) m hm
      · exact hm
    · intro rt2
      simp [bucketOf, assocFind]
  · intro hz pkg hpkg hwhy ch hch root hroot
    subst hz
    rw [collectChains]
    exact collectChains_zero_reaches fuel whyM rootPkgs idx order [] pkg hpkg hwhy
      ch hch root hroot

/-- C8 witness: the cap evaluated at the concrete index with limit 1. -/
theorem c8_witness :
    (bucketOf (collectChains 10 1 whyMEx ["a.com/l1", "a.com/l2"] ["a.com/app"] idxWhy)
      "a.com/app").length ≤ 1 :=
  (c8_per_root_cap 10 1 whyMEx ["a.com/l1", "a.com/l2"] ["a.com/app"] idxWhy).1
    (by decide) "a.com/app"

/-- C3 (code bug): `showNReasonsWhy` enumerates the `-why` targets in Go map
iteration order, which is randomized per run; permuting that order over the
same index changes which chain survives the per-root cap, so the printed
bounded chain set is not deterministic as the spec requires. -/
theorem c3_output_depends_on_map_order :
    showNReasonsWhy 10 1 whyMEx ["a.com/l1", "a.com/l2"] ["a.com/app"] idxWhy ≠
      showNReasonsWhy 10 1 whyMEx ["a.com/l2", "a.com/l1"] ["a.com/app"] idxWhy ∧
    (["a.com/l2", "a.com/l1"] : List String).Perm ["a.com/l1", "a.com/l2"] ∧
    ["a.com/l1", "a.com/l2"] = keysOf idxWhy := by
  refine ⟨by decide, by decide, by decide⟩

/-! ### The reachability filter -/

theorem unv_mono (idx : Index) (m m' : List String) (h : m ⊆ m') :
    ((keysOf idx).toFinset \ m'.toFinset).card ≤ ((keysOf idx).toFinset \ m.toFinset).card := by
  apply Finset.card_le_card
  apply Finset.sdiff_subset_sdiff (Finset.Subset.refl _)
  intro x hx
  exact List.mem_toFinset.mpr (h (List.mem_toFinset.mp hx))

theorem unv_dec (idx : Index) (m : List String) (p : String)
    (hk : p ∈ keysOf idx) (hm : p ∉ m) :
    ((keysOf idx).toFinset \ (p :: m).toFinset).card <
      ((keysOf idx).toFinset \ m.toFinset).card := by
  rw [List.toFinset_cons, Finset.sdiff_insert]
  apply Finset.card_erase_lt_of_mem
  rw [Finset.mem_sdiff]
  exact ⟨List.mem_toFinset.mpr hk, fun hc => hm (List.mem_toFinset.mp hc)⟩

theorem unv_le_card (idx : Index) (m : List String) :
    ((keysOf idx).toFinset \ m.toFinset).card ≤ (keysOf idx).toFinset.card :=
  Finset.card_le_card (Finset.sdiff_subset)

/-- Marking only adds to the marked set. -/
theorem mark_subset (idx : Index) :
    ∀ (fuel : Nat) (p : String) (marked : List String),
      marked ⊆ markImporters idx fuel p marked := by
  intro fuel
  induction fuel with
  | zero =>
    intro p marked
    rw [markImporters]
    exact fun x hx => hx
  | succ fuel ih =>
    intro p marked
    rw [markImporters]
    split
    · exact fun x hx => hx
    · have hfold : ∀ (imps mk : List String),
          mk ⊆ imps.foldl (fun mk imp => markImporters idx fuel imp mk) mk := by
        intro imps
        induction imps with
        | nil => intro mk; exact fun x hx => hx
        | cons imp imps ihm =>
          intro mk
          rw [List.foldl_cons]
          exact fun x hx => ihm _ (ih imp mk hx)
      exact fun x hx => hfold _ _ (List.mem_cons_of_mem _ hx)

theorem reach_through (idx : Index) (p i q : String)
    (hi : i ∈ lookupImps idx p) (hr : Reach idx i q) : Reach idx p q := by
  induction hr with
  | refl => exact Reach.step (Reach.refl p) hi
  | step _ hy ih => exact Reach.step ih hy

/-- Everything marked from `p` was already marked or is reachable from `p`. -/
theorem mark_sound (idx : Index) :
    ∀ (fuel : Nat) (p : String) (marked : List String) (q : String),
      q ∈ markImporters idx fuel p marked → q ∈ marked ∨ Reach idx p q := by
  intro fuel
  induction fuel with
  | zero =>
    intro p marked q hq
    rw [markImporters] at hq
    exact Or.inl hq
  | succ fuel ih =>
    intro p marked q hq
    rw [markImporters] at hq
    split at hq
    · exact Or.inl hq
    · have hfold : ∀ (imps mk : List String) (q : String),
          (∀ i ∈ imps, i ∈ lookupImps idx p) →
          q ∈ imps.foldl (fun mk imp => markImporters idx fuel imp mk) mk →
          q ∈ mk ∨ ∃ i ∈ imps, Reach idx i q := by
        intro imps
        induction imps with
        | nil =>
          intro mk q _ hq
          exact Or.inl hq
        | cons imp imps ihm =>
          intro mk q himps hq
          rw [List.foldl_cons] at hq
          rcases ihm _ q (fun i hi => himps i (List.mem_cons_of_mem _ hi)) hq with hq2 | hq2
          · rcases ih imp mk q hq2 with hq3 | hq3
            · exact Or.inl hq3
            · exact Or.inr ⟨imp, List.mem_cons_self _ _, hq3⟩
          · obtain ⟨i, hi, hr⟩ := hq2
            exact Or.inr ⟨i, List.mem_cons_of_mem _ hi, hr⟩
      rcases hfold (lookupImps idx (p)) (p :: marked) q (fun i hi => hi) hq with hq2 | hq2
      · rcases List.mem_cons.mp hq2 with he | hq3
        · exact Or.inr (by rw [he]; exact Reach.refl p)
        · exact Or.inl hq3
      · obtain ⟨i, hi, hr⟩ := hq2
        exact Or.inr (reach_through idx p i q hi hr)

/-- With enough fuel, marking from `p` marks `p`, keeps everything already
marked, and leaves the marked set closed under importer edges up to the
frontier `F`. -/
theorem mark_complete (idx : Index) :
    ∀ (fuel : Nat) (p : String) (marked F : List String),
      ((keysOf idx).toFinset \ marked.toFinset).card + 1 ≤ fuel →
      (∀ x ∈ marked, ∀ y ∈ lookupImps idx x, y ∈ marked ∨ y ∈ F ∨ y = p) →
      marked ⊆ markImporters idx fuel p marked ∧
      p ∈ markImporters idx fuel p marked ∧
      (∀ x ∈ markImporters idx fuel p marked, ∀ y ∈ lookupImps idx x,
        y ∈ markImporters idx fuel p marked ∨ y ∈ F) := by
  intro fuel
  induction fuel with
  | zero =>
    intro p marked F hf
    exact absurd hf (by omega)
  | succ fuel ih =>
    intro p marked F hf hcov
    rw [markImporters]
    by_cases hpm : p ∈ marked
    · rw [if_pos hpm]
      refine ⟨fun x hx => hx, hpm, ?_⟩
      intro x hx y hy
      rcases hcov x hx y hy with h | h | h
      · exact Or.inl h
      · exact Or.inr h
      · exact Or.inl (h ▸ hpm)
    · rw [if_neg hpm]
      by_cases hpk : p ∈ keysOf idx
      · have hfuel2 : ((keysOf idx).toFinset \ (p :: marked).toFinset).card + 1 ≤ fuel := by
          have hd := unv_dec idx marked p hpk hpm
          omega
        have hml : ∀ (imps : List String),
            ∀ (mk F' : List String),
            ((keysOf idx).toFinset \ mk.toFinset).card + 1 ≤ fuel →
            (∀ x ∈ mk, ∀ y ∈ lookupImps idx x, y ∈ mk ∨ y ∈ F' ∨ y ∈ imps) →
            mk ⊆ imps.foldl (fun mk imp => markImporters idx fuel imp mk) mk ∧
            (∀ i ∈ imps, i ∈ imps.foldl (fun mk imp => markImporters idx fuel imp mk) mk) ∧
            (∀ x ∈ imps.foldl (fun mk imp => markImporters idx fuel imp mk) mk,
              ∀ y ∈ lookupImps idx x,
              y ∈ imps.foldl (fun mk imp => markImporters idx fuel imp mk) mk ∨ y ∈ F') := by
          intro imps
          induction imps with
          | nil =>
            intro mk F' _ hcv
            rw [List.foldl_nil]
            refine ⟨fun x hx => hx, by simp, ?_⟩
            intro x hx y hy
            rcases hcv x hx y hy with h | h | h
            · exact Or.inl h
            · exact Or.inr h
            · exact absurd h (List.not_mem_nil y)
          | cons imp imps ihm =>
            intro mk F' hfm hcv
            rw [List.foldl_cons]
            obtain ⟨hsub1, hmem1, hcov1⟩ := ih imp mk (F' ++ imps) hfm (by
              intro x hx y hy
              rcases hcv x hx y hy with h | h | h
              · exact Or.inl h
              · exact Or.inr (Or.inl (List.mem_append_left _ h))
              · rcases List.mem_cons.mp h with he | h2
                · exact Or.inr (Or.inr he)
                · exact Or.inr (Or.inl (List.mem_append_right _ h2)))
            have hfm1 : ((keysOf idx).toFinset \
                (markImporters idx fuel imp mk).toFinset).card + 1 ≤ fuel := by
              have := unv_mono idx mk (markImporters idx fuel imp mk) hsub1
              omega
            obtain ⟨hsub2, hmem2, hcov2⟩ := ihm (markImporters idx fuel imp mk) F' hfm1 (by
              intro x hx y hy
              rcases hcov1 x hx y hy with h | h
              · exact Or.inl h
              · rcases List.mem_append.mp h with h2 | h2
                · exact Or.inr (Or.inl h2)
                · exact Or.inr (Or.inr h2))
            refine ⟨fun x hx => hsub2 (hsub1 hx), ?_, hcov2⟩
            intro i hi
            rcases List.mem_cons.mp hi with he | hi2
            · exact he ▸ hsub2 hmem1
            · exact hmem2 i hi2
        obtain ⟨hs, hm, hc⟩ := hml (lookupImps idx p)
          (p :: marked) F hfuel2 (by
            intro x hx y hy
            rcases List.mem_cons.mp hx with he | hx2
            · subst he
              exact Or.inr (Or.inr hy)
            · rcases hcov x hx2 y hy with h | h | h
              · exact Or.inl (List.mem_cons_of_mem _ h)
              · exact Or.inr (Or.inl h)
              · exact Or.inl (h ▸ List.mem_cons_self _ _))
        exact ⟨fun x hx => hs (List.mem_cons_of_mem _ hx), hs (List.mem_cons_self _ _), hc⟩
      · rw [lookupImps_eq_nil_of_not_mem idx p hpk, List.foldl_nil]
        refine ⟨fun x hx => List.mem_cons_of_mem _ hx, List.mem_cons_self _ _, ?_⟩
        intro x hx y hy
        rcases List.mem_cons.mp hx with he | hx2
        · subst he
          rw [lookupImps_eq_nil_of_not_mem idx x hpk] at hy
          exact absurd hy (List.not_mem_nil y)
        · rcases hcov x hx2 y hy with h | h | h
          · exact Or.inl (List.mem_cons_of_mem _ h)
          · exact Or.inr h
          · exact Or.inl (h ▸ List.mem_cons_self _ _)

theorem closed_reach (idx : Index) (S : List String)
    (hclosed : ∀ x ∈ S, ∀ y ∈ lookupImps idx x, y ∈ S) (m q : String)
    (hm : m ∈ S) (hr : Reach idx m q) : q ∈ S := by
  induction hr with
  | refl => exact hm
  | step _ hy ih => exact hclosed _ ih _ hy

/-- The marking pass of the `-why` filter: the final marked set contains every
matching key, is closed under importer edges, and only grows. -/
theorem seeds_fold_props (idx : Index) (whyM : String → Bool) :
    ∀ (pkgs mk : List String),
      (∀ x ∈ mk, ∀ y ∈ lookupImps idx x, y ∈ mk) →
      (mk ⊆ pkgs.foldl (fun mk pkg =>
          if whyM pkg then markImporters idx (fuelFor idx) pkg mk else mk) mk) ∧
      (∀ x ∈ pkgs.foldl (fun mk pkg =>
          if whyM pkg then markImporters idx (fuelFor idx) pkg mk else mk) mk,
        ∀ y ∈ lookupImps idx x,
        y ∈ pkgs.foldl (fun mk pkg =>
          if whyM pkg then markImporters idx (fuelFor idx) pkg mk else mk) mk) ∧
      (∀ pkg ∈ pkgs, whyM pkg = true →
        pkg ∈ pkgs.foldl (fun mk pkg =>
          if whyM pkg then markImporters idx (fuelFor idx) pkg mk else mk) mk) := by
  intro pkgs
  induction pkgs with
  | nil =>
    intro mk hclosed
    refine ⟨fun x hx => hx, hclosed, ?_⟩
    intro pkg hpkg
    exact absurd hpkg (List.not_mem_nil pkg)
  | cons o os ih =>
    intro mk hclosed
    rw [List.foldl_cons]
    by_cases hw : whyM o = true
    · rw [if_pos hw]
      have hfuel : ((keysOf idx).toFinset \ mk.toFinset).card + 1 ≤ fuelFor idx := by
        have := unv_le_card idx mk
        rw [fuelFor]
        omega
      obtain ⟨hsub1, hmem1, hcov1⟩ := mark_complete idx (fuelFor idx) o mk []
        hfuel (fun x hx y hy => Or.inl (hclosed x hx y hy))
      have hclosed1 : ∀ x ∈ markImporters idx (fuelFor idx) o mk,
          ∀ y ∈ lookupImps idx x, y ∈ markImporters idx (fuelFor idx) o mk := by
        intro x hx y hy
        rcases hcov1 x hx y hy with h | h
        · exact h
        · exact absurd h (List.not_mem_nil y)
      obtain ⟨hsub2, hclosed2, hall2⟩ := ih (markImporters idx (fuelFor idx) o mk) hclosed1
      refine ⟨fun x hx => hsub2 (hsub1 hx), hclosed2, ?_⟩
      intro pkg hpkg hwpkg
      rcases List.mem_cons.mp hpkg with he | hpkg2
      · exact he ▸ hsub2 hmem1
      · exact hall2 pkg hpkg2 hwpkg
    · rw [if_neg hw]
      obtain ⟨hsub2, hclosed2, hall2⟩ := ih mk hclosed
      refine ⟨hsub2, hclosed2, ?_⟩
      intro pkg hpkg hwpkg
      rcases List.mem_cons.mp hpkg with he | hpkg2
      · exact absurd (he ▸ hwpkg) hw
      · exact hall2 pkg hpkg2 hwpkg

/-- Everything the marking pass marks is reachable from some matching seed. -/
theorem seeds_fold_sound (idx : Index) (whyM : String → Bool) :
    ∀ (pkgs mk : List String) (q : String),
      q ∈ pkgs.foldl (fun mk pkg =>
        if whyM pkg then markImporters idx (fuelFor idx) pkg mk else mk) mk →
      q ∈ mk ∨ ∃ m ∈ pkgs, whyM m = true ∧ Reach idx m q := by
  intro pkgs
  induction pkgs with
  | nil =>
    intro mk q hq
    exact Or.inl hq
  | cons o os ih =>
    intro mk q hq
    rw [List.foldl_cons] at hq
    rcases ih _ q hq with hq2 | hq2
    · by_cases hw : whyM o = true
      · rw [if_pos hw] at hq2
        rcases mark_sound idx (fuelFor idx) o mk q hq2 with hq3 | hq3
        · exact Or.inl hq3
        · exact Or.inr ⟨o, List.mem_cons_self _ _, hw, hq3⟩
      · rw [if_neg hw] at hq2
        exact Or.inl hq2
    · obtain ⟨m, hm, hwm, hr⟩ := hq2
      exact Or.inr ⟨m, List.mem_cons_of_mem _ hm, hwm, hr⟩

theorem mem_keysOf_filter_marked (idx : Index) (marked : List String) (p : String) :
    p ∈ keysOf (idx.filter (fun kv => kv.1 ∈ marked)) ↔ p ∈ keysOf idx ∧ p ∈ marked := by
  simp only [keysOf, List.mem_map, List.mem_filter]
  constructor
  · rintro ⟨kv, ⟨hm, hp⟩, rfl⟩
    exact ⟨⟨kv, hm, rfl⟩, of_decide_eq_true hp⟩
  · rintro ⟨⟨kv, hm, rfl⟩, hmem⟩
    exact ⟨kv, ⟨hm, decide_eq_true hmem⟩, rfl⟩

/-- C7: a package is retained by the `-why` reachability filter exactly when
it is a key of the index and some key matching the predicate reaches it by
zero or more recorded importer edges (a package matching the predicate itself
is retained). -/
theorem c7_reachability_filter :
    ∀ (idx : Index) (whyM : String → Bool) (p : String),
      p ∈ keysOf (whyFilter whyM idx) ↔
        (p ∈ keysOf idx ∧ ∃ m, m ∈ keysOf idx ∧ whyM m = true ∧ Reach idx m p) := by
  intro idx whyM p
  simp only [whyFilter]
  rw [mem_keysOf_filter_marked]
  constructor
  · rintro ⟨hk, hmarked⟩
    refine ⟨hk, ?_⟩
    rcases seeds_fold_sound idx whyM (keysOf idx) [] p hmarked with h | h
    · exact absurd h (List.not_mem_nil p)
    · obtain ⟨m, hm, hw, hr⟩ := h
      exact ⟨m, hm, hw, hr⟩
  · rintro ⟨hk, m, hm, hw, hr⟩
    refine ⟨hk, ?_⟩
    obtain ⟨hsub, hclosed, hall⟩ := seeds_fold_props idx whyM (keysOf idx) []
      (by intro x hx; exact absurd hx (List.not_mem_nil x))
    exact closed_reach idx _ hclosed m p (hall m hm hw) hr

/-- C7 witness: the filter applied to the concrete index retains a key that
matches the predicate itself (zero-length path). -/
theorem c7_witness : "a.com/l1" ∈ keysOf (whyFilter whyMEx idxWhy) :=
  (c7_reachability_filter idxWhy whyMEx "a.com/l1").mpr
    ⟨by decide, "a.com/l1", by decide, by decide, Reach.refl _⟩

/-- C10 witness: the universal clause evaluated at the concrete cgo run. -/
theorem c10_witness : "C" ∉ stLog (buildIndex rCgo flagsStd true ["a.com/x"] 5) :=
  c10_cgo_pseudo_import.1 rCgo flagsStd true ["a.com/x"] 5

/-- C6 witness: the characterization applied to a concrete root package whose
stdlib import is kept because `-stdlib` is on. -/
theorem c6_witness :
    "fmt" ∈ importsOf flagsStd pkgNonTest
      ((["x.com/p"] : List String).contains pkgNonTest.importPath) :=
  (c6_import_set_characterization flagsStd ["x.com/p"] pkgNonTest "fmt").mpr
    ⟨Or.inl (by decide), Or.inl rfl⟩

end Showdeps
